import Mathlib

/-!
Verification development for the htmd text engine.

Strings are embedded as `List Char`; Rust byte positions are modelled with
explicit UTF-8 widths (`Char.utf8Size`), and operations that can fault at
runtime (string slicing off a char boundary or past the end, styling a
non-stylable fragment, integer underflow) are embedded as `Option`-valued
functions where `none` models the fault.
-/

/-- UTF-8 byte length of a list of characters, mirroring Rust `str::len`. -/
def byteLen (s : List Char) : Nat := (s.map Char.utf8Size).sum

/-- Model of Rust `str::split_at` at a byte index: `none` models the runtime
fault raised when the index is past the end or not a character boundary. -/
def splitAtBytes : Nat → List Char → Option (List Char × List Char)
  | 0, s => some ([], s)
  | _ + 1, [] => none
  | n + 1, c :: cs =>
    if c.utf8Size ≤ n + 1 then
      (splitAtBytes (n + 1 - c.utf8Size) cs).map (fun p => (c :: p.1, p.2))
    else
      none

/-- Model of the Rust byte slice `&line[n..]`; `none` models the fault on a
non-boundary or out-of-range index. -/
def dropBytes : Nat → List Char → Option (List Char)
  | 0, s => some s
  | _ + 1, [] => none
  | n + 1, c :: cs =>
    if c.utf8Size ≤ n + 1 then dropBytes (n + 1 - c.utf8Size) cs
    else none

/-- The Unicode White_Space code points, as tested by Rust
`char::is_whitespace`. -/
def rustIsWhitespace (c : Char) : Bool :=
  [0x09, 0x0A, 0x0B, 0x0C, 0x0D, 0x20, 0x85, 0xA0, 0x1680,
   0x2000, 0x2001, 0x2002, 0x2003, 0x2004, 0x2005, 0x2006, 0x2007,
   0x2008, 0x2009, 0x200A, 0x2028, 0x2029, 0x202F, 0x205F, 0x3000].contains c.toNat

/-- Rust `str::trim_start`. -/
def trimStart (s : List Char) : List Char := s.dropWhile rustIsWhitespace

/-- Rust `str::trim_end`. -/
def trimEnd (s : List Char) : List Char := (s.reverse.dropWhile rustIsWhitespace).reverse

/-- Rust `str::trim`. -/
def trim (s : List Char) : List Char := trimEnd (trimStart s)

/-- The backtick character (written by code point to keep source lines clean). -/
def backtick : Char := Char.ofNat 96

-- ===================== document.rs: Span, Style, TextFragment, Text =====================

/-- `Span` from document.rs: an `(offset, length)` pair of byte positions. -/
structure Span where
  offset : Nat
  length : Nat
deriving DecidableEq

/-- `Span::from_start_end`; `none` models the `assert!(start <= end)` fault. -/
def Span.from_start_end (start fin : Nat) : Option Span :=
  if start ≤ fin then some ⟨start, fin - start⟩ else none

/-- The `Style` bitflags from document.rs, one Bool per flag bit. -/
structure Style where
  normal : Bool
  strong : Bool
  emphasis : Bool
  code : Bool
  strikethrough : Bool
  modifier : Bool
deriving DecidableEq

/-- Bitwise OR of two style bit-sets. -/
def Style.or (a b : Style) : Style :=
  ⟨a.normal || b.normal, a.strong || b.strong, a.emphasis || b.emphasis,
   a.code || b.code, a.strikethrough || b.strikethrough, a.modifier || b.modifier⟩

def Style.Normal : Style := ⟨true, false, false, false, false, false⟩
def Style.Strong : Style := ⟨false, true, false, false, false, false⟩
def Style.Emphasis : Style := ⟨false, false, true, false, false, false⟩
def Style.Code : Style := ⟨false, false, false, true, false, false⟩
def Style.Strikethrough : Style := ⟨false, false, false, false, true, false⟩
def Style.Modifier : Style := ⟨false, false, false, false, false, true⟩

/-- `TextFragment` from document.rs. -/
inductive TextFragment where
  | Stylised (style : Style) (s : List Char)
  | Link (alt : List Char) (link : List Char)
  | Image (alt : List Char) (path : List Char)
deriving DecidableEq

/-- `TextFragment::len` from document.rs: `s.chars().count()` for `Stylised`,
and `alt.chars().count() + link.len()` for `Link`/`Image` (note: `link.len()`
is the Rust byte length of the target string). -/
def TextFragment.len : TextFragment → Nat
  | .Stylised _ s => s.length
  | .Link alt link => alt.length + byteLen link
  | .Image alt link => alt.length + byteLen link

/-- `TextFragment::style_in` from document.rs. Splits the addressed run into
up to five parts; `none` models the `panic!` on a `Link`/`Image` target, the
usize underflow when `prefixe_len` exceeds `span.length`, and the `split_at`
faults. -/
def TextFragment.style_in (f : TextFragment) (span : Span) (prefixe_len : Nat)
    (style : Style) : Option (List TextFragment) :=
  match f with
  | .Stylised initial_style s =>
    if span.offset + span.length > byteLen s then
      some [.Stylised initial_style s]
    else do
      let (left_part, s1) ← splitAtBytes span.offset s
      let (left_modifier, s2) ← splitAtBytes prefixe_len s1
      if span.length < prefixe_len then none
      else do
        let (middle_part, s3) ← splitAtBytes (span.length - prefixe_len) s2
        let (right_modifier, right_part) ← splitAtBytes prefixe_len s3
        some ((if left_part.isEmpty then [] else [.Stylised initial_style left_part]) ++
          (if left_modifier.isEmpty then [] else [.Stylised Style.Modifier left_modifier]) ++
          (if middle_part.isEmpty then []
           else [.Stylised (initial_style.or style) middle_part]) ++
          (if right_modifier.isEmpty then [] else [.Stylised Style.Modifier right_modifier]) ++
          (if right_part.isEmpty then [] else [.Stylised initial_style right_part]))
  | _ => none

/-- `TextFragment::replace` from document.rs. -/
def TextFragment.replace (f : TextFragment) (span : Span) (frag : TextFragment) :
    Option (List TextFragment) :=
  match f with
  | .Stylised initial_style s =>
    if span.offset + span.length > byteLen s then
      some [.Stylised initial_style s]
    else do
      let (left_part, s1) ← splitAtBytes span.offset s
      let (_, right_part) ← splitAtBytes span.length s1
      some [.Stylised initial_style left_part, frag, .Stylised initial_style right_part]
  | _ => none

/-- `TextFragment::remove` from document.rs. -/
def TextFragment.remove (f : TextFragment) (span : Span) : Option (List TextFragment) :=
  match f with
  | .Stylised initial_style s =>
    if span.offset + span.length > byteLen s then
      some [.Stylised initial_style s]
    else do
      let (left_part, s1) ← splitAtBytes span.offset s
      let (_, right_part) ← splitAtBytes span.length s1
      some [.Stylised initial_style left_part, .Stylised initial_style right_part]
  | _ => none

/-- `Text` from document.rs: the fragment list of one logical line. -/
structure Text where
  content : List TextFragment
deriving DecidableEq

/-- Loop body of `Text::find_modified_fragment`, carrying the cumulative
length and the index. -/
def findAux : List TextFragment → Nat → Nat → Nat → Option (Nat × Nat)
  | [], _, _, _ => none
  | f :: fs, spanOffset, offset, idx =>
    if spanOffset < f.len + offset then some (idx, spanOffset - offset)
    else findAux fs spanOffset (offset + f.len) (idx + 1)

/-- `Text::find_modified_fragment`: returns the index of the fragment holding
`spanOffset` together with the span offset translated into that fragment's
local coordinates. -/
def Text.find_modified_fragment (t : Text) (spanOffset : Nat) : Option (Nat × Nat) :=
  findAux t.content spanOffset 0 0

/-- `Text::style` from document.rs: remove the located fragment and reinsert
the parts produced by `style_in` in its place. -/
def Text.style (t : Text) (prefixe_len : Nat) (span : Span) (style : Style) : Option Text :=
  match t.find_modified_fragment span.offset with
  | none => some t
  | some (idx, localOffset) =>
    match t.content.get? idx with
    | none => none
    | some f =>
      (f.style_in ⟨localOffset, span.length⟩ prefixe_len style).map
        (fun pieces => ⟨t.content.take idx ++ pieces ++ t.content.drop (idx + 1)⟩)

/-- `Text::replace` from document.rs. -/
def Text.replace (t : Text) (span : Span) (frag : TextFragment) : Option Text :=
  match t.find_modified_fragment span.offset with
  | none => some t
  | some (idx, localOffset) =>
    match t.content.get? idx with
    | none => none
    | some f =>
      (f.replace ⟨localOffset, span.length⟩ frag).map
        (fun pieces => ⟨t.content.take idx ++ pieces ++ t.content.drop (idx + 1)⟩)

/-- `Text::remove` from document.rs. -/
def Text.remove (t : Text) (span : Span) : Option Text :=
  match t.find_modified_fragment span.offset with
  | none => some t
  | some (idx, localOffset) =>
    match t.content.get? idx with
    | none => none
    | some f =>
      (f.remove ⟨localOffset, span.length⟩).map
        (fun pieces => ⟨t.content.take idx ++ pieces ++ t.content.drop (idx + 1)⟩)

/-- `Text::appendnl` from document.rs: push a newline run, then the other
text's fragments. -/
def Text.appendnl (a b : Text) : Text :=
  ⟨a.content ++ [.Stylised Style.Normal ['\n']] ++ b.content⟩

-- ===================== document.rs: Node and compacte_nodes =====================

/-- `CodeBlock` as built by the markdown scanner (md/mod.rs): a language tag
and the accumulated code text. -/
structure CodeBlock where
  language : List Char
  code : List Char
deriving DecidableEq

/-- `ListKind` from document.rs (source spelling kept). -/
inductive ListKind where
  | Oredred (deepth : Nat)
  | Unordere (deepth : Nat)
deriving DecidableEq

/-- `Node` from document.rs. -/
inductive Node where
  | Header (level : Nat) (text : Text)
  | Paragraphe (text : Text)
  | List (kind : ListKind) (text : Text)
  | CodeBlock (cb : CodeBlock)
  | LineBreak
  | Rule
deriving DecidableEq

/-- Flushing the in-progress paragraph accumulator of `compacte_nodes`. -/
def flushList : Option Text → List Node
  | some t => [.Paragraphe t]
  | none => []

/-- Loop of `compacte_nodes` from document.rs, written with the remaining
output as the result: `acc` is the open paragraph accumulator and `hb` the
"last emitted was a line break or header" flag. -/
def compacteAux : List Node → Option Text → Bool → List Node
  | [], acc, _ => flushList acc
  | .Paragraphe t :: rest, acc, _ =>
    match acc with
    | some pt => compacteAux rest (some (pt.appendnl t)) false
    | none => compacteAux rest (some t) false
  | .LineBreak :: rest, acc, hb =>
    if hb then flushList acc ++ compacteAux rest none true
    else flushList acc ++ (.LineBreak :: compacteAux rest none true)
  | .Header lv t :: rest, acc, _ =>
    flushList acc ++ (.Header lv t :: compacteAux rest none true)
  | .List k t :: rest, acc, _ =>
    flushList acc ++ (.List k t :: compacteAux rest none false)
  | .CodeBlock cb :: rest, acc, _ =>
    flushList acc ++ (.CodeBlock cb :: compacteAux rest none false)
  | .Rule :: rest, acc, _ =>
    flushList acc ++ (.Rule :: compacteAux rest none false)

/-- `compacte_nodes` from document.rs. -/
def compacte_nodes (nodes : List Node) : List Node :=
  compacteAux nodes none false

/-- `Document` from document.rs. -/
structure Document where
  nodes : List Node
deriving DecidableEq

-- ===================== md/queue.rs: Queue and pop_min2 =====================

/-- First-minimum selection over `(key, x, y)` candidates, mirroring Rust
`Iterator::min_by_key` keyed on the first component (the first of several
equal minima is kept). -/
def minByFirst (l : List (Nat × Nat × Nat)) : Option (Nat × Nat × Nat) :=
  l.foldl
    (fun acc v =>
      match acc with
      | none => some v
      | some b => if v.1 < b.1 then some v else some b)
    none

/-- The twelve queues of `parse_text`: four files (one per marker character)
of three run-length buckets, each queue a FIFO list of run-start offsets. -/
def Buffers := List (List (List Nat))

/-- The queue at file `y`, bucket `x`. -/
def queueAt (files : Buffers) (y x : Nat) : List Nat :=
  ((files.getD y []).getD x [])

/-- Replace the queue at file `y`, bucket `x`. -/
def setQueue (files : Buffers) (y x : Nat) (q : List Nat) : Buffers :=
  files.set y ((files.getD y []).set x q)

/-- Candidate of one file for `pop_min2`: the front of each queue holding at
least two elements, keyed by that front, minimised per file. -/
def candidatesOfFile (queues : List (List Nat)) (y : Nat) : Option (Nat × Nat × Nat) :=
  minByFirst ((queues.enum).filterMap
    (fun p => if p.2.length ≥ 2 then p.2.head?.map (fun v => (v, p.1, y)) else none))

/-- `pop_min2` from md/queue.rs: among queues holding at least two offsets,
pick the one with the globally smallest front and pop its two front
elements, returning them with the queue's `(x, y)` coordinates and the
updated queues. -/
def pop_min2 (files : Buffers) : Option ((Nat × Nat) × (Nat × Nat) × Buffers) :=
  match minByFirst ((files.enum).filterMap (fun p => candidatesOfFile p.2 p.1)) with
  | none => none
  | some (_, x, y) =>
    match queueAt files y x with
    | a :: b :: rest => some ((a, b), (x, y), setQueue files y x rest)
    | _ => none

/-- Total number of queued offsets across all twelve queues. -/
def totalCount (files : Buffers) : Nat :=
  (files.map (fun qs => (qs.map List.length).sum)).sum

-- ===================== md/mod.rs: the inline scanner =====================

/-- The four marker characters of the delimiter scanner. -/
def markers : List Char := ['*', '_', backtick, '~']

/-- Scanner output state: the four 3-bucket queue groups, the recognised
link/image substitutions, and the recorded escape-character offsets. -/
structure ScanState where
  asterisks : List (List Nat)
  underscores : List (List Nat)
  backticks : List (List Nat)
  tildes : List (List Nat)
  links_images : List (Span × TextFragment)
  escaped : List Nat
deriving DecidableEq

/-- Characters up to (and excluding) the first occurrence of `stop`,
together with the remainder after `stop`; `none` when `stop` never occurs. -/
def takeUntil (stop : Char) : List Char → Option (List Char × List Char)
  | [] => none
  | c :: cs =>
    if c = stop then some ([], cs)
    else (takeUntil stop cs).map (fun p => (c :: p.1, p.2))

/-- `try_push_link_image_in` from md/mod.rs: attempt to recognise
`[alt](link)` or `![alt](path)` at the current position. On success returns
the recorded span and fragment plus the advanced character stream and byte
offset; `none` leaves the scan state untouched. -/
def try_push_link_image_in (cs : List Char) (offset : Nat) :
    Option (Span × TextFragment × List Char × Nat) :=
  match cs with
  | [] => none
  | c :: _ =>
    if c ≠ '!' ∧ c ≠ '[' then none
    else
      let is_image := c = '!'
      let t := if is_image then cs.drop 1 else cs
      let link_offset := if is_image then '!'.utf8Size else 0
      match t with
      | '[' :: t => do
        let link_offset := link_offset + '['.utf8Size
        let (alt, t) ← takeUntil ']' t
        let link_offset := link_offset + byteLen alt + ']'.utf8Size
        match t with
        | '(' :: t => do
          let link_offset := link_offset + '('.utf8Size
          let (link, t) ← takeUntil ')' t
          let link_offset := link_offset + byteLen link + ')'.utf8Size
          let span : Span := ⟨offset, link_offset⟩
          let frag := if is_image then TextFragment.Image alt link
            else TextFragment.Link alt link
          some (span, frag, t, offset + link_offset)
        | _ => none
      | _ => none

/-- Push a run-start offset onto bucket `i` of a queue group. -/
def pushBucket (buffers : List (List Nat)) (i : Nat) (v : Nat) : List (List Nat) :=
  buffers.set i (buffers.getD i [] ++ [v])

/-- `try_push_prefixe_idx_in` from md/mod.rs: tally the maximal run of
`prefixe` at the current position, classify its length into bucket
{1, 2, ≥3}, and queue the run's start offset. -/
def try_push_prefixe_idx_in (cs : List Char) (offset : Nat) (prefixe : Char)
    (buffers : List (List Nat)) : List Char × Nat × List (List Nat) :=
  let run := cs.takeWhile (fun c => c = prefixe)
  let occurence := run.length
  let prefixe_offset := byteLen run
  let buffers :=
    match occurence with
    | 0 => buffers
    | 1 => pushBucket buffers 0 offset
    | 2 => pushBucket buffers 1 offset
    | _ => pushBucket buffers 2 offset
  (cs.dropWhile (fun c => c = prefixe), offset + prefixe_offset, buffers)

/-- The inner while loop of `parse_text`: consume ordinary characters up to
the next marker character, recording the offset of each escape character
`\` and additionally skipping (without counting) the character after it. -/
def consumePlain : List Char → Nat → List Nat → List Char × Nat × List Nat
  | [], offset, escaped => ([], offset, escaped)
  | c :: cs, offset, escaped =>
    if markers.contains c then (c :: cs, offset, escaped)
    else
      let offset1 := offset + c.utf8Size
      if c = '\\' then
        match cs with
        | [] => ([], offset1, escaped ++ [offset1 - c.utf8Size])
        | _ :: cs1 => consumePlain cs1 offset1 (escaped ++ [offset1 - c.utf8Size])
      else consumePlain cs offset1 escaped

/-- The outer scanning loop of `parse_text`: at each position attempt the
link/image recogniser, then the four marker-run recognisers, then consume
plain characters. `fuel` bounds the iteration count; every iteration on a
nonempty stream consumes at least one character, so `length + 1` fuel always
reaches the empty stream. -/
def scanLoop : Nat → List Char → Nat → ScanState → ScanState
  | 0, _, _, st => st
  | fuel + 1, cs, offset, st =>
    match cs with
    | [] => st
    | _ =>
      let (cs, offset, links) :=
        match try_push_link_image_in cs offset with
        | some (sp, fr, cs1, o1) => (cs1, o1, st.links_images ++ [(sp, fr)])
        | none => (cs, offset, st.links_images)
      let (cs, offset, ast) := try_push_prefixe_idx_in cs offset '*' st.asterisks
      let (cs, offset, und) := try_push_prefixe_idx_in cs offset '_' st.underscores
      let (cs, offset, btk) := try_push_prefixe_idx_in cs offset backtick st.backticks
      let (cs, offset, tld) := try_push_prefixe_idx_in cs offset '~' st.tildes
      let (cs, offset, esc) := consumePlain cs offset st.escaped
      scanLoop fuel cs offset ⟨ast, und, btk, tld, links, esc⟩

/-- Initial scanner state: twelve empty queues, no links, no escapes. -/
def initScan : ScanState :=
  ⟨[[], [], []], [[], [], []], [[], [], []], [[], [], []], [], []⟩

/-- Run the delimiter scanner over one logical line. -/
def scanLine (line : List Char) : ScanState :=
  scanLoop (line.length + 1) line 0 initScan

/-- One resolver step of `parse_text`: build the span and dispatch the
`(x, y)` coordinates to the style table. `none` models a fault; the
unreachable bucket indices and the ignored tilde buckets leave the text
unchanged. -/
def applyPop (text : Text) (x y start fin : Nat) : Option Text :=
  match Span.from_start_end start fin with
  | none => none
  | some span =>
    match y with
    | 0 | 1 =>
      match x with
      | 0 => text.style (x + 1) span Style.Emphasis
      | 1 => text.style (x + 1) span Style.Strong
      | 2 => text.style (x + 1) span (Style.Emphasis.or Style.Strong)
      | _ => none
    | 2 => text.style (x + 1) span Style.Code
    | 3 => if x = 1 then text.style (x + 1) span Style.Strikethrough else some text
    | _ => some text

/-- The delimiter-resolver loop of `parse_text`: repeatedly pop the earliest
matchable pair and apply its style. `fuel` bounds the iterations; each pop
removes two queued offsets, so `totalCount + 1` fuel always suffices. -/
def styleLoop : Nat → Buffers → Text → Option Text
  | 0, _, text => some text
  | fuel + 1, buffers, text =>
    match pop_min2 buffers with
    | none => some text
    | some ((start, fin), (x, y), buffers1) =>
      match applyPop text x y start fin with
      | none => none
      | some text1 => styleLoop fuel buffers1 text1

/-- `parse_text` from md/mod.rs: scan the line, resolve delimiter pairs into
styles, then apply the recorded link/image replacements and escape
removals. -/
def parse_text (line : List Char) : Option Text :=
  let st := scanLine line
  let buffers : Buffers := [st.asterisks, st.underscores, st.backticks, st.tildes]
  let text : Text := ⟨[.Stylised Style.Normal line]⟩
  (styleLoop (totalCount buffers + 1) buffers text).bind fun text =>
    (st.links_images.foldlM (fun (t : Text) p => t.replace p.1 p.2) text).bind fun text =>
      st.escaped.foldlM (fun (t : Text) off => t.remove ⟨off, 1⟩) text

-- ===================== md/mod.rs: the block line classifier =====================

/-- The `RULE_CHARS` constant from md/mod.rs. -/
def RULE_CHARS : List Char := ['*', '-', '_']

/-- `calcule_deepth` from md/mod.rs: leading tabs count one level each,
every four other leading whitespace characters count one level. -/
def calcule_deepth (line : List Char) : Nat :=
  let ws := line.takeWhile rustIsWhitespace
  (ws.filter (fun c => c = '\t')).length + (ws.filter (fun c => !(c = '\t'))).length / 4

/-- `is_code_block_annonce` from md/mod.rs: after trimming, exactly three
leading backticks; returns the trailing language tag. -/
def is_code_block_annonce (line : List Char) : Option (List Char) :=
  let line := trim line
  let language := line.dropWhile (fun c => c = backtick)
  if byteLen line - byteLen language = 3 then some language else none

/-- `try_parse_header` from md/mod.rs. The result is doubly optional: the
outer `none` models a fault inside `parse_text`, the inner `none` means the
header pattern does not match. -/
def try_parse_header (line : List Char) : Option (Option Node) :=
  let line := trim line
  let text := line.dropWhile (fun c => c = '#')
  if byteLen text = byteLen line then some none
  else
    match text with
    | c :: rest =>
      if rustIsWhitespace c then
        let hierachy := byteLen line - byteLen rest - 1
        match dropBytes (hierachy + 1) line with
        | none => none
        | some content =>
          (parse_text content).map (fun t => some (Node.Header (min hierachy 5) t))
      else some none
    | [] => some none

/-- `try_parse_unordered_list` from md/mod.rs. -/
def try_parse_unordered_list (line : List Char) : Option (Option Node) :=
  let deepth := calcule_deepth line
  let line := trim line
  let text : Option (List Char) :=
    match line with
    | '-' :: ' ' :: rest => some rest
    | '+' :: ' ' :: rest => some rest
    | '*' :: ' ' :: rest => some rest
    | _ => none
  match text with
  | none => some none
  | some text =>
    (parse_text text).map (fun t => some (Node.List (ListKind.Unordere deepth) t))

/-- ASCII decimal digits; models the `char::is_numeric` test of the ordered
list ordinals for the inputs considered here. -/
def rustIsNumeric (c : Char) : Bool := c.isDigit

/-- `try_parse_ordered_list` from md/mod.rs. -/
def try_parse_ordered_list (line : List Char) : Option (Option Node) :=
  let deepth := calcule_deepth line
  let line := trim line
  let text := line.dropWhile rustIsNumeric
  if byteLen text = byteLen line then some none
  else
    match text with
    | '.' :: ' ' :: rest =>
      (parse_text rest).map (fun t => some (Node.List (ListKind.Oredred deepth) t))
    | _ => some none

/-- Loop of `try_parse_rule`: the running rule character and its occurrence
count; `none` models the early `return None` on a mismatching character. -/
def ruleScan : List Char → Option Char → Nat → Option (Option Char × Nat)
  | [], character, char_occ => some (character, char_occ)
  | c :: cs, some character, char_occ =>
    if character = c then ruleScan cs (some character) (char_occ + 1) else none
  | c :: cs, none, char_occ =>
    if RULE_CHARS.contains c then ruleScan cs (some c) (char_occ + 1) else none

/-- `try_parse_rule` from md/mod.rs: the trimmed line, ignoring internal
whitespace, must repeat one rule character at least three times. -/
def try_parse_rule (line : List Char) : Option Node :=
  let line := trim line
  match ruleScan (line.filter (fun c => !rustIsWhitespace c)) none 0 with
  | none => none
  | some (character, char_occ) =>
    if character.isSome ∧ char_occ ≥ 3 then some Node.Rule else none

/-- `parse_line` from md/mod.rs: classify one physical line given the open
code-fence state. The outer `none` models a fault inside `parse_text`; the
inner option is the emitted node (if any) paired with the updated fence
state. -/
def parse_line (line : List Char) (codeblock : Option CodeBlock) :
    Option (Option Node × Option CodeBlock) :=
  match codeblock with
  | some codeblock_inner =>
    if is_code_block_annonce line = some [] then
      some (some (Node.CodeBlock codeblock_inner), none)
    else
      some (none, some ⟨codeblock_inner.language, codeblock_inner.code ++ line ++ ['\n']⟩)
  | none =>
    match is_code_block_annonce line with
    | some language => some (none, some ⟨language, []⟩)
    | none =>
      if (trim line).isEmpty then some (some Node.LineBreak, none)
      else
        match try_parse_header line with
        | none => none
        | some (some node) => some (some node, none)
        | some none =>
          match try_parse_unordered_list line with
          | none => none
          | some (some node) => some (some node, none)
          | some none =>
            match try_parse_ordered_list line with
            | none => none
            | some (some node) => some (some node, none)
            | some none =>
              match try_parse_rule line with
              | some node => some (some node, none)
              | none =>
                (parse_text line).map (fun t => (some (Node.Paragraphe t), none))

-- ===================== md/mod.rs: MarkDown::from_str =====================

/-- Split at every newline character, keeping empty pieces. -/
def splitNl : List Char → List (List Char)
  | [] => [[]]
  | c :: cs =>
    if c = '\n' then [] :: splitNl cs
    else
      match splitNl cs with
      | h :: t => (c :: h) :: t
      | [] => [[c]]

/-- Strip one trailing carriage return, as Rust `str::lines` does on pieces
terminated by a newline. -/
def stripCR (l : List Char) : List Char :=
  if l.getLast? = some '\r' then l.dropLast else l

/-- Rust `str::lines`: split on `\n` (also consuming a `\r` directly before
it); a trailing line terminator produces no extra empty line. -/
def lines (s : List Char) : List (List Char) :=
  if s.isEmpty then []
  else
    let parts := splitNl s
    match parts.getLast? with
    | none => []
    | some lastPart =>
      if lastPart.isEmpty then parts.dropLast.map stripCR
      else parts.dropLast.map stripCR ++ [lastPart]

/-- The line loop of `MarkDown::from_str`: fold `parse_line` over the lines,
collecting emitted nodes and threading the code-fence state. -/
def parseLines : List (List Char) → Option CodeBlock → Option (List Node × Option CodeBlock)
  | [], codeblock => some ([], codeblock)
  | l :: ls, codeblock => do
    let (node, codeblock1) ← parse_line l codeblock
    let (nodes, codeblock2) ← parseLines ls codeblock1
    some (node.toList ++ nodes, codeblock2)

/-- `MarkDown::from_str`: parse every line, drop the (possibly still open)
fence state, and compact the node sequence. The `none` result models a fault
reached inside the inline engine; the declared error type of the Rust
implementation is `Infallible` and is never produced. -/
def from_str (s : List Char) : Option Document :=
  (parseLines (lines s) none).map (fun r => ⟨compacte_nodes r.1⟩)

-- ===================== derived definitions used by the properties =====================

/-- The text carried by a styled run; `Link`/`Image` fragments carry none. -/
def fragText : TextFragment → List Char
  | .Stylised _ s => s
  | _ => []

/-- Concatenation, in fragment order, of the texts of all styled-run
fragments. -/
def concatTexts : List TextFragment → List Char
  | [] => []
  | f :: fs => fragText f ++ concatTexts fs

/-- Sum of `TextFragment.len` over a fragment list. -/
def totalLen (fs : List TextFragment) : Nat := (fs.map TextFragment.len).sum

/-- Whether a node is a paragraph. -/
def Node.isP : Node → Bool
  | .Paragraphe _ => true
  | _ => false

/-- Whether a node is a line break. -/
def Node.isLB : Node → Bool
  | .LineBreak => true
  | _ => false

/-- Whether a node is a header. -/
def Node.isH : Node → Bool
  | .Header _ _ => true
  | _ => false

/-- Adjacency shape of compactor output: no two adjacent paragraphs, and no
line break directly after a line break or a header. -/
def okPair (a b : Node) : Bool :=
  !(a.isP && b.isP) && !((a.isLB || a.isH) && b.isLB)

/-- Every adjacent pair of the list satisfies `okPair`. -/
def Good : List Node → Bool
  | [] => true
  | [_] => true
  | a :: b :: rest => okPair a b && Good (b :: rest)

/-- The list does not start with a line break. -/
def headNotLB : List Node → Bool
  | .LineBreak :: _ => false
  | _ => true

/-- The list does not start with a paragraph. -/
def headNotP : List Node → Bool
  | .Paragraphe _ :: _ => false
  | _ => true

-- ===================== helper lemmas: conservation =====================

/-- A successful byte split concatenates back to the original string. -/
theorem splitAtBytes_append {n : Nat} {s a b : List Char}
    (h : splitAtBytes n s = some (a, b)) : a ++ b = s := by
  induction s generalizing n a b with
  | nil =>
    cases n with
    | zero =>
      simp only [splitAtBytes, Option.some.injEq, Prod.mk.injEq] at h
      simp [← h.1, ← h.2]
    | succ n => simp [splitAtBytes] at h
  | cons c cs ih =>
    cases n with
    | zero =>
      simp only [splitAtBytes, Option.some.injEq, Prod.mk.injEq] at h
      simp [← h.1, ← h.2]
    | succ n =>
      simp only [splitAtBytes] at h
      split at h
      · cases h' : splitAtBytes (n + 1 - c.utf8Size) cs with
        | none => rw [h'] at h; simp at h
        | some p =>
          rw [h'] at h
          simp only [Option.map_some', Option.some.injEq, Prod.mk.injEq] at h
          have := ih h'
          rw [← h.1, ← h.2]
          cases p with
          | mk p1 p2 => simpa using this
      · simp at h

theorem concatTexts_append (a b : List TextFragment) :
    concatTexts (a ++ b) = concatTexts a ++ concatTexts b := by
  induction a with
  | nil => simp [concatTexts]
  | cons f fs ih => simp [concatTexts, ih]

/-- Decompose a list around a successfully indexed element. -/
theorem take_get_drop {α : Type} : ∀ (l : List α) (i : Nat) (f : α),
    l.get? i = some f → l.take i ++ f :: l.drop (i + 1) = l := by
  intro l
  induction l with
  | nil => intro i f h; simp at h
  | cons a l ih =>
    intro i f h
    cases i with
    | zero =>
      simp only [List.get?] at h
      cases h
      simp
    | succ i =>
      simp only [List.get?] at h
      simpa using ih i f h

/-- The text of a conditionally pushed run piece is the piece itself. -/
theorem concatTexts_piece (st : Style) (l : List Char) :
    concatTexts (if l.isEmpty then [] else [.Stylised st l]) = l := by
  cases l <;> simp [concatTexts, fragText]

/-- Variant of `concatTexts_piece` with the emptiness test in propositional
form. -/
theorem concatTexts_piece' (st : Style) (l : List Char) :
    concatTexts (if l = [] then [] else [.Stylised st l]) = l := by
  cases l <;> simp [concatTexts, fragText]

/-- A successful `style_in` emits pieces whose texts concatenate to the text
of the styled fragment. -/
theorem style_in_concat {f : TextFragment} {sp : Span} {p : Nat} {st : Style}
    {ps : List TextFragment} (h : f.style_in sp p st = some ps) :
    concatTexts ps = fragText f := by
  cases f with
  | Link a l => simp [TextFragment.style_in] at h
  | Image a l => simp [TextFragment.style_in] at h
  | Stylised st0 s =>
    simp only [TextFragment.style_in] at h
    split at h
    · cases h
      simp [concatTexts, fragText]
    · simp only [Option.bind_eq_bind, Option.bind_eq_some] at h
      obtain ⟨⟨left, s1⟩, h1, h⟩ := h
      dsimp only at h
      obtain ⟨⟨lmod, s2⟩, h2, h⟩ := h
      dsimp only at h
      split at h
      · simp at h
      · simp only [Option.bind_eq_some] at h
        obtain ⟨⟨mid, s3⟩, h3, h⟩ := h
        dsimp only at h
        obtain ⟨⟨rmod, right⟩, h4, h⟩ := h
        dsimp only at h
        cases h
        rw [fragText, ← splitAtBytes_append h1, ← splitAtBytes_append h2,
          ← splitAtBytes_append h3, ← splitAtBytes_append h4]
        simp [concatTexts_append, concatTexts_piece, concatTexts_piece', concatTexts]

/-- `Text::style` preserves the concatenated styled-run text. -/
theorem Text.style_concat {t t' : Text} {p : Nat} {sp : Span} {st : Style}
    (h : t.style p sp st = some t') :
    concatTexts t'.content = concatTexts t.content := by
  unfold Text.style at h
  cases hf : t.find_modified_fragment sp.offset with
  | none => rw [hf] at h; cases h; rfl
  | some v =>
    obtain ⟨idx, localOffset⟩ := v
    rw [hf] at h
    dsimp only at h
    cases hg : t.content.get? idx with
    | none => rw [hg] at h; cases h
    | some f =>
      rw [hg] at h
      dsimp only at h
      cases hs : f.style_in ⟨localOffset, sp.length⟩ p st with
      | none => rw [hs] at h; cases h
      | some ps =>
        rw [hs] at h
        cases h
        have hdec := take_get_drop t.content idx f hg
        calc concatTexts (t.content.take idx ++ ps ++ t.content.drop (idx + 1))
            = concatTexts (t.content.take idx) ++ concatTexts ps ++
              concatTexts (t.content.drop (idx + 1)) := by
              simp [concatTexts_append]
          _ = concatTexts (t.content.take idx) ++ fragText f ++
              concatTexts (t.content.drop (idx + 1)) := by
              rw [style_in_concat hs]
          _ = concatTexts (t.content.take idx ++ f :: t.content.drop (idx + 1)) := by
              simp [concatTexts_append, concatTexts]
          _ = concatTexts t.content := by rw [hdec]

/-- One resolver step preserves the concatenated styled-run text. -/
theorem applyPop_concat {t t' : Text} {x y start fin : Nat}
    (h : applyPop t x y start fin = some t') :
    concatTexts t'.content = concatTexts t.content := by
  unfold applyPop at h
  cases hsp : Span.from_start_end start fin with
  | none => rw [hsp] at h; cases h
  | some sp =>
    rw [hsp] at h
    match y, h with
    | 0, h =>
      match x, h with
      | 0, h => exact Text.style_concat h
      | 1, h => exact Text.style_concat h
      | 2, h => exact Text.style_concat h
      | n + 3, h => cases h
    | 1, h =>
      match x, h with
      | 0, h => exact Text.style_concat h
      | 1, h => exact Text.style_concat h
      | 2, h => exact Text.style_concat h
      | n + 3, h => cases h
    | 2, h => exact Text.style_concat h
    | 3, h =>
      dsimp only at h
      by_cases hx : x = 1
      · rw [if_pos hx] at h; exact Text.style_concat h
      · rw [if_neg hx] at h; cases h; rfl
    | n + 4, h => cases h; rfl

/-- The whole resolver loop preserves the concatenated styled-run text. -/
theorem styleLoop_concat : ∀ {fuel : Nat} {bs : Buffers} {t t' : Text},
    styleLoop fuel bs t = some t' → concatTexts t'.content = concatTexts t.content := by
  intro fuel
  induction fuel with
  | zero => intro bs t t' h; cases h; rfl
  | succ fuel ih =>
    intro bs t t' h
    simp only [styleLoop] at h
    cases hp : pop_min2 bs with
    | none => rw [hp] at h; cases h; rfl
    | some v =>
      obtain ⟨⟨start, fin⟩, ⟨x, y⟩, bs1⟩ := v
      rw [hp] at h
      dsimp only at h
      cases ha : applyPop t x y start fin with
      | none => rw [ha] at h; cases h
      | some t1 =>
        rw [ha] at h
        exact (ih h).trans (applyPop_concat ha)

-- ===================== helper lemmas: compaction =====================

theorem headNotLB_cons (b : Node) (tl : List Node) : headNotLB (b :: tl) = !b.isLB := by
  cases b <;> rfl

theorem headNotP_cons (b : Node) (tl : List Node) : headNotP (b :: tl) = !b.isP := by
  cases b <;> rfl

theorem good_tail {a : Node} {l : List Node} (h : Good (a :: l) = true) : Good l = true := by
  cases l with
  | nil => rfl
  | cons b tl =>
    rw [Good, Bool.and_eq_true] at h
    exact h.2

theorem good_head {a b : Node} {l : List Node} (h : Good (a :: b :: l) = true) :
    okPair a b = true := by
  rw [Good, Bool.and_eq_true] at h
  exact h.1

theorem good_cons {a : Node} {l : List Node} (h1 : Good l = true)
    (h2 : ∀ b tl, l = b :: tl → okPair a b = true) : Good (a :: l) = true := by
  cases l with
  | nil => rfl
  | cons b tl =>
    rw [Good, Bool.and_eq_true]
    exact ⟨h2 b tl rfl, h1⟩

theorem okPair_LB_right {b : Node} (h : b.isLB = false) : okPair Node.LineBreak b = true := by
  cases b <;> simp_all [okPair, Node.isP, Node.isLB, Node.isH]

theorem okPair_H_right {lv : Nat} {t : Text} {b : Node} (h : b.isLB = false) :
    okPair (Node.Header lv t) b = true := by
  cases b <;> simp_all [okPair, Node.isP, Node.isLB, Node.isH]

theorem okPair_P_right {t : Text} {b : Node} (h : b.isP = false) :
    okPair (Node.Paragraphe t) b = true := by
  cases b <;> simp_all [okPair, Node.isP, Node.isLB, Node.isH]

theorem okPair_List_left (k : ListKind) (t : Text) (b : Node) :
    okPair (Node.List k t) b = true := by
  cases b <;> simp [okPair, Node.isP, Node.isLB, Node.isH]

theorem okPair_CB_left (cb : CodeBlock) (b : Node) :
    okPair (Node.CodeBlock cb) b = true := by
  cases b <;> simp [okPair, Node.isP, Node.isLB, Node.isH]

theorem okPair_Rule_left (b : Node) : okPair Node.Rule b = true := by
  cases b <;> simp [okPair, Node.isP, Node.isLB, Node.isH]

/-- With an open paragraph accumulator the compactor output starts with a
paragraph node. -/
theorem compacteAux_someAcc : ∀ (l : List Node) (t : Text) (hb : Bool),
    ∃ t' tl, compacteAux l (some t) hb = .Paragraphe t' :: tl := by
  intro l
  induction l with
  | nil => intro t hb; exact ⟨t, [], rfl⟩
  | cons n rest ih =>
    intro t hb
    cases n with
    | Paragraphe t2 => exact ih (t.appendnl t2) false
    | LineBreak =>
      cases hb with
      | false => exact ⟨t, _, rfl⟩
      | true => exact ⟨t, _, rfl⟩
    | Header lv t2 => exact ⟨t, _, rfl⟩
    | List k t2 => exact ⟨t, _, rfl⟩
    | CodeBlock cb => exact ⟨t, _, rfl⟩
    | Rule => exact ⟨t, _, rfl⟩

/-- With the suppression flag armed and no open accumulator, the output does
not start with a line break. -/
theorem compacteAux_armed_headNotLB : ∀ (l : List Node),
    headNotLB (compacteAux l none true) = true := by
  intro l
  induction l with
  | nil => rfl
  | cons n rest ih =>
    cases n with
    | Paragraphe t =>
      obtain ⟨t', tl, he⟩ := compacteAux_someAcc rest t false
      simp [compacteAux, he, headNotLB]
    | LineBreak => simpa [compacteAux, flushList] using ih
    | Header lv t => rfl
    | List k t => rfl
    | CodeBlock cb => rfl
    | Rule => rfl

/-- Head of the armed, accumulator-free compactor output is not a line
break, stated through `Node.isLB`. -/
theorem compacteAux_armed_head_isLB {rest : List Node} {b : Node} {tl : List Node}
    (he : compacteAux rest none true = b :: tl) : b.isLB = false := by
  have h := compacteAux_armed_headNotLB rest
  rw [he, headNotLB_cons, Bool.not_eq_true'] at h
  exact h

/-- The compactor only produces `Good` sequences (under the execution
invariant that an open accumulator implies a cleared suppression flag). -/
theorem good_compacteAux : ∀ (l : List Node) (acc : Option Text) (hb : Bool),
    (acc.isSome → hb = false) → Good (compacteAux l acc hb) = true := by
  intro l
  induction l with
  | nil =>
    intro acc hb _
    cases acc <;> rfl
  | cons n rest ih =>
    intro acc hb hinv
    cases n with
    | Paragraphe t =>
      cases acc with
      | none => exact ih (some t) false (fun _ => rfl)
      | some pt => exact ih (some (pt.appendnl t)) false (fun _ => rfl)
    | LineBreak =>
      have harm : Good (Node.LineBreak :: compacteAux rest none true) = true := by
        refine good_cons (ih none true (by simp)) ?_
        intro b tl he
        exact okPair_LB_right (compacteAux_armed_head_isLB he)
      cases acc with
      | none =>
        cases hb with
        | true => simpa [compacteAux, flushList] using ih none true (by simp)
        | false => simpa [compacteAux, flushList] using harm
      | some t =>
        have hbf : hb = false := hinv rfl
        subst hbf
        simp only [compacteAux, flushList, List.cons_append, List.nil_append,
          Bool.false_eq_true, if_false]
        refine good_cons harm ?_
        intro b tl he
        cases he
        rfl
    | Header lv t =>
      have hrec : Good (Node.Header lv t :: compacteAux rest none true) = true := by
        refine good_cons (ih none true (by simp)) ?_
        intro b tl he
        exact okPair_H_right (compacteAux_armed_head_isLB he)
      cases acc with
      | none => simpa [compacteAux, flushList] using hrec
      | some t0 =>
        simp only [compacteAux, flushList, List.cons_append, List.nil_append]
        refine good_cons hrec ?_
        intro b tl he
        cases he
        rfl
    | List k t =>
      have hrec : Good (Node.List k t :: compacteAux rest none false) = true :=
        good_cons (ih none false (by simp)) (fun b tl _ => okPair_List_left k t b)
      cases acc with
      | none => simpa [compacteAux, flushList] using hrec
      | some t0 =>
        simp only [compacteAux, flushList, List.cons_append, List.nil_append]
        refine good_cons hrec ?_
        intro b tl he
        cases he
        rfl
    | CodeBlock cb =>
      have hrec : Good (Node.CodeBlock cb :: compacteAux rest none false) = true :=
        good_cons (ih none false (by simp)) (fun b tl _ => okPair_CB_left cb b)
      cases acc with
      | none => simpa [compacteAux, flushList] using hrec
      | some t0 =>
        simp only [compacteAux, flushList, List.cons_append, List.nil_append]
        refine good_cons hrec ?_
        intro b tl he
        cases he
        rfl
    | Rule =>
      have hrec : Good (Node.Rule :: compacteAux rest none false) = true :=
        good_cons (ih none false (by simp)) (fun b tl _ => okPair_Rule_left b)
      cases acc with
      | none => simpa [compacteAux, flushList] using hrec
      | some t0 =>
        simp only [compacteAux, flushList, List.cons_append, List.nil_append]
        refine good_cons hrec ?_
        intro b tl he
        cases he
        rfl

/-- On a `Good` sequence (whose head respects the incoming state) the
compactor is the identity, up to flushing the incoming accumulator. -/
theorem compacteAux_id : ∀ (l : List Node) (acc : Option Text) (hb : Bool),
    Good l = true → (hb = true → headNotLB l = true) →
    (acc.isSome = true → headNotP l = true ∧ hb = false) →
    compacteAux l acc hb = flushList acc ++ l := by
  intro l
  induction l with
  | nil =>
    intro acc hb _ _ _
    cases acc <;> simp [compacteAux, flushList]
  | cons n rest ih =>
    intro acc hb hg hlb hacc
    cases n with
    | Paragraphe t =>
      cases acc with
      | some pt =>
        have := (hacc rfl).1
        simp [headNotP] at this
      | none =>
        have hrest : headNotP rest = true := by
          cases rest with
          | nil => rfl
          | cons b tl =>
            have hok := good_head hg
            rw [headNotP_cons, Bool.not_eq_true']
            revert hok
            cases b <;> simp [okPair, Node.isP, Node.isLB, Node.isH]
        have := ih (some t) false (good_tail hg) (by simp) (fun _ => ⟨hrest, rfl⟩)
        simpa [compacteAux, flushList] using this
    | LineBreak =>
      cases hb with
      | true =>
        have := hlb rfl
        simp [headNotLB] at this
      | false =>
        have hrest : headNotLB rest = true := by
          cases rest with
          | nil => rfl
          | cons b tl =>
            have hok := good_head hg
            rw [headNotLB_cons, Bool.not_eq_true']
            revert hok
            cases b <;> simp [okPair, Node.isP, Node.isLB, Node.isH]
        have hrec := ih none true (good_tail hg) (fun _ => hrest) (by simp)
        simp only [flushList, List.nil_append] at hrec
        cases acc <;>
          simp [compacteAux, flushList, hrec]
    | Header lv t =>
      have hrest : headNotLB rest = true := by
        cases rest with
        | nil => rfl
        | cons b tl =>
          have hok := good_head hg
          rw [headNotLB_cons, Bool.not_eq_true']
          revert hok
          cases b <;> simp [okPair, Node.isP, Node.isLB, Node.isH]
      have hrec := ih none true (good_tail hg) (fun _ => hrest) (by simp)
      simp only [flushList, List.nil_append] at hrec
      cases acc <;> simp [compacteAux, flushList, hrec]
    | List k t =>
      have hrec := ih none false (good_tail hg) (by simp) (by simp)
      simp only [flushList, List.nil_append] at hrec
      cases acc <;> simp [compacteAux, flushList, hrec]
    | CodeBlock cb =>
      have hrec := ih none false (good_tail hg) (by simp) (by simp)
      simp only [flushList, List.nil_append] at hrec
      cases acc <;> simp [compacteAux, flushList, hrec]
    | Rule =>
      have hrec := ih none false (good_tail hg) (by simp) (by simp)
      simp only [flushList, List.nil_append] at hrec
      cases acc <;> simp [compacteAux, flushList, hrec]

-- ===================== helper lemmas: spans past the end =====================

/-- When the requested offset lies at or past the remaining total fragment
length, the localisation loop finds nothing. -/
theorem findAux_none : ∀ (fs : List TextFragment) (spanOffset offset idx : Nat),
    offset + totalLen fs ≤ spanOffset → findAux fs spanOffset offset idx = none := by
  intro fs
  induction fs with
  | nil => intro so o i _; rfl
  | cons f fs ih =>
    intro so o i h
    simp only [totalLen, List.map_cons, List.sum_cons] at h
    have h1 : ¬so < f.len + o := by omega
    simp only [findAux, if_neg h1]
    exact ih so (o + f.len) (i + 1) (by simp [totalLen]; omega)

-- ===================== helper lemmas: line folding =====================

/-- `parseLines` distributes over list append. -/
theorem parseLines_append : ∀ (a b : List (List Char)) (cb : Option CodeBlock),
    parseLines (a ++ b) cb =
      (parseLines a cb).bind (fun r =>
        (parseLines b r.2).map (fun r2 => (r.1 ++ r2.1, r2.2))) := by
  intro a
  induction a with
  | nil =>
    intro b cb
    simp only [List.nil_append, parseLines]
    cases h : parseLines b cb with
    | none => simp [h]
    | some r => simp [h]
  | cons l ls ih =>
    intro b cb
    simp only [List.cons_append, parseLines]
    cases h : parse_line l cb with
    | none => rfl
    | some r =>
      obtain ⟨node, cb1⟩ := r
      simp only [Option.bind_eq_bind, Option.some_bind, List.append_eq]
      rw [ih]
      cases h2 : parseLines ls cb1 with
      | none => simp [h2]
      | some r2 =>
        cases h3 : parseLines b r2.2 with
        | none => simp [h2, h3]
        | some r3 => simp [h2, h3, List.append_assoc]

/-- As long as no line is a bare closing fence, an open fence swallows every
line and stays open. -/
theorem fence_stays_open : ∀ (ls : List (List Char)) (cb : CodeBlock),
    (∀ l ∈ ls, ¬ is_code_block_annonce l = some []) →
    ∃ cb', parseLines ls (some cb) = some ([], some cb') := by
  intro ls
  induction ls with
  | nil => intro cb _; exact ⟨cb, rfl⟩
  | cons l ls ih =>
    intro cb h
    have hl : ¬ is_code_block_annonce l = some [] := h l (List.mem_cons_self l ls)
    obtain ⟨cb', hrec⟩ := ih ⟨cb.language, cb.code ++ (l ++ ['\n'])⟩
      (fun x hx => h x (List.mem_cons_of_mem l hx))
    refine ⟨cb', ?_⟩
    simp [parseLines, parse_line, if_neg hl, hrec, List.append_assoc]

-- ===================== claim theorems =====================

/-- C1 (counterexample): the line `"- - -"` does not yield a `Rule` node:
because unordered-list matching runs before rule matching in `parse_line`,
it yields an unordered `List` node. -/
theorem c1_rule_counterexample :
    parse_line "- - -".toList none =
      some (some (Node.List (ListKind.Unordere 0)
        ⟨[.Stylised Style.Normal "- -".toList]⟩), none) ∧
    ¬ parse_line "- - -".toList none = some (some Node.Rule, none) := by decide

/-- C1 (amended): `"***"` yields `Rule`; `"- - -"` yields an unordered
`List` node (the list pattern preempts the rule pattern); `"-*-"` (mixed
characters) does not yield `Rule` — it degrades to a paragraph. -/
theorem c1_rule_detection_amended :
    parse_line "***".toList none = some (some Node.Rule, none) ∧
    parse_line "- - -".toList none =
      some (some (Node.List (ListKind.Unordere 0)
        ⟨[.Stylised Style.Normal "- -".toList]⟩), none) ∧
    parse_line "-*-".toList none =
      some (some (Node.Paragraphe ⟨[.Stylised Style.Normal "-*-".toList]⟩), none) := by
  decide

/-- C2 (counterexample): `TextFragment.len` of a link whose target is the
multi-byte character é is 2 (the UTF-8 byte count of the target), not the
character count 1 predicted by the claim. -/
theorem c2_len_counterexample :
    (TextFragment.Link [] ['é']).len = 2 ∧
    ¬ (TextFragment.Link [] ['é']).len = ([] : List Char).length + ['é'].length := by
  decide

/-- C2 (amended): `len` is the character count of the text for a styled run,
and the character count of the alt text plus the UTF-8 byte count of the
target/source for `Link`/`Image`. -/
theorem c2_len_amended :
    ∀ (st : Style) (s alt link : List Char),
      (TextFragment.Stylised st s).len = s.length ∧
      (TextFragment.Link alt link).len = alt.length + byteLen link ∧
      (TextFragment.Image alt link).len = alt.length + byteLen link := by
  intro st s alt link
  exact ⟨rfl, rfl, rfl⟩

/-- C3 (counterexample): the line `"é*a*~~b~~"` contains no links, images
or escapes, yet the inline engine faults on it (char-count fragment lengths
are subtracted from byte offsets, sending a later split off the end of a
fragment), so no fragment list is produced at all. -/
theorem c3_conservation_counterexample :
    (scanLine "é*a*~~b~~".toList).links_images = [] ∧
    (scanLine "é*a*~~b~~".toList).escaped = [] ∧
    parse_text "é*a*~~b~~".toList = none := by decide

/-- C3 (amended): for every line on which the scanner records no links,
images or escapes, if the inline engine completes without a fault then the
concatenation, in fragment order, of the texts of all styled-run fragments
equals the original line exactly. -/
theorem c3_conservation_amended (line : List Char) (t : Text)
    (hlinks : (scanLine line).links_images = [])
    (hesc : (scanLine line).escaped = [])
    (hp : parse_text line = some t) :
    concatTexts t.content = line := by
  simp only [parse_text, hlinks, hesc, List.foldlM_nil] at hp
  rw [Option.bind_eq_some] at hp
  obtain ⟨t1, h1, h2⟩ := hp
  simp only [pure, Option.bind_eq_bind, Option.some_bind, Option.some.injEq] at h2
  subst h2
  have := styleLoop_concat h1
  simpa [concatTexts, fragText] using this

/-- C3 (witness): instantiation at a concrete plain line. -/
theorem c3_conservation_witness :
    concatTexts (⟨[TextFragment.Stylised Style.Normal "abc".toList]⟩ : Text).content =
      "abc".toList :=
  c3_conservation_amended "abc".toList ⟨[.Stylised Style.Normal "abc".toList]⟩
    (by decide) (by decide) (by decide)

/-- C4: `"a *b* c"` yields exactly the five fragments normal `"a "`,
modifier `"*"`, emphasised `"b"` (the emphasis bit OR-ed onto the normal
run), modifier `"*"`, normal `" c"`, and their texts concatenate back to
`"a *b* c"`. -/
theorem c4_delimiter_pairing :
    parse_text "a *b* c".toList =
      some ⟨[.Stylised Style.Normal "a ".toList, .Stylised Style.Modifier "*".toList,
        .Stylised (Style.Normal.or Style.Emphasis) "b".toList,
        .Stylised Style.Modifier "*".toList, .Stylised Style.Normal " c".toList]⟩ ∧
    concatTexts [.Stylised Style.Normal "a ".toList, .Stylised Style.Modifier "*".toList,
        .Stylised (Style.Normal.or Style.Emphasis) "b".toList,
        .Stylised Style.Modifier "*".toList, .Stylised Style.Normal " c".toList] =
      "a *b* c".toList := by decide

/-- C5: the block compactor is idempotent — running `compacte_nodes` on its
own output returns that output unchanged. -/
theorem c5_compaction_idempotent (l : List Node) :
    compacte_nodes (compacte_nodes l) = compacte_nodes l := by
  have hg := good_compacteAux l none false (fun h => by simp at h)
  have hid := compacteAux_id (compacteAux l none false) none false hg
    (fun h => by exact absurd h (by decide)) (fun h => by simp at h)
  simpa [compacte_nodes, flushList] using hid

/-- C6: `"# Title\n\nNext"` parses to exactly a level-1 header followed by a
paragraph, with no `LineBreak` between them; and in general an emitted
header arms the suppression flag, so the blank line directly after any
header is absorbed. -/
theorem c6_heading_blank_suppression :
    from_str "# Title\n\nNext".toList =
      some ⟨[Node.Header 1 ⟨[.Stylised Style.Normal "Title".toList]⟩,
        Node.Paragraphe ⟨[.Stylised Style.Normal "Next".toList]⟩]⟩ ∧
    (∀ (lv : Nat) (t : Text) (rest : List Node),
      compacte_nodes (Node.Header lv t :: Node.LineBreak :: rest) =
        Node.Header lv t :: compacteAux rest none true) := by
  refine ⟨by decide, ?_⟩
  intro lv t rest
  simp [compacte_nodes, compacteAux, flushList]

/-- C7: ```` ```rust\nfoo()\n``` ```` yields a single code block with
language `"rust"` and code `"foo()\n"`; while a fence is open, a line that
is not a bare closing fence is appended raw plus a newline, and a bare
closing fence emits the accumulated block and clears the state. -/
theorem c7_code_fence :
    from_str "```rust\nfoo()\n```".toList =
      some ⟨[Node.CodeBlock ⟨"rust".toList, "foo()\n".toList⟩]⟩ ∧
    (∀ (cb : CodeBlock) (line : List Char), ¬ is_code_block_annonce line = some [] →
      parse_line line (some cb) =
        some (none, some ⟨cb.language, cb.code ++ line ++ ['\n']⟩)) ∧
    (∀ (cb : CodeBlock) (line : List Char), is_code_block_annonce line = some [] →
      parse_line line (some cb) = some (some (Node.CodeBlock cb), none)) := by
  refine ⟨by decide, ?_, ?_⟩
  · intro cb line h
    simp [parse_line, if_neg h]
  · intro cb line h
    simp [parse_line, if_pos h]

/-- C7 (witness): one open-fence step on a concrete line. -/
theorem c7_code_fence_witness :
    parse_line "x".toList (some ⟨"rust".toList, []⟩) =
      some (none, some ⟨"rust".toList, [] ++ "x".toList ++ ['\n']⟩) :=
  c7_code_fence.2.1 ⟨"rust".toList, []⟩ "x".toList (by decide)

/-- C8 (counterexample): parsing is not fault-free for every input — the
single paragraph line `"é*a*~~b~~"` drives the inline engine into a
split off a fragment boundary, a runtime fault, so `from_str` produces no
document at all for it. -/
theorem c8_totality_counterexample : from_str "é*a*~~b~~".toList = none := by decide

/-- C8 (amended): the declared error type is never produced and every
non-blank line matching no structural pattern (fence, header, list, rule)
degrades to a paragraph whenever the inline engine completes without a
fault; faults themselves remain reachable on some multi-byte lines. -/
theorem c8_totality_amended (line : List Char)
    (h1 : is_code_block_annonce line = none)
    (h2 : (trim line).isEmpty = false)
    (h3 : try_parse_header line = some none)
    (h4 : try_parse_unordered_list line = some none)
    (h5 : try_parse_ordered_list line = some none)
    (h6 : try_parse_rule line = none) :
    parse_line line none =
      (parse_text line).map (fun t => (some (Node.Paragraphe t), none)) := by
  simp [parse_line, h1, h2, h3, h4, h5, h6]

/-- C8 (witness): the plain line `"hello"` degrades to a paragraph. -/
theorem c8_totality_witness :
    parse_line "hello".toList none =
      (parse_text "hello".toList).map (fun t => (some (Node.Paragraphe t), none)) :=
  c8_totality_amended "hello".toList (by decide) (by decide) (by decide) (by decide)
    (by decide) (by decide)

/-- C9: a code fence opened and never closed swallows every following line:
the document contains exactly the nodes of the lines before the opener, and
neither the opener nor any line inside the fence contributes any node. -/
theorem c9_unterminated_fence (s : List Char) (ls1 : List (List Char)) (op : List Char)
    (ls2 : List (List Char)) (lang : List Char) (ns : List Node)
    (h1 : parseLines ls1 none = some (ns, none))
    (h2 : is_code_block_annonce op = some lang)
    (h3 : ∀ l ∈ ls2, ¬ is_code_block_annonce l = some [])
    (h4 : lines s = ls1 ++ op :: ls2) :
    from_str s = some ⟨compacte_nodes ns⟩ ∧
      ∃ cb, parseLines (lines s) none = some (ns, some cb) := by
  obtain ⟨cb', hopen⟩ := fence_stays_open ls2 ⟨lang, []⟩ h3
  have hop : parse_line op none = some (none, some ⟨lang, []⟩) := by
    simp [parse_line, h2]
  have hfull : parseLines (lines s) none = some (ns, some cb') := by
    rw [h4, parseLines_append, h1]
    simp [parseLines, hop, hopen]
  exact ⟨by simp [from_str, hfull], cb', hfull⟩

/-- C9 (witness): a bare fence opener followed by one swallowed line. -/
theorem c9_unterminated_fence_witness :
    from_str "```\nfoo".toList = some ⟨compacte_nodes []⟩ ∧
      ∃ cb, parseLines (lines "```\nfoo".toList) none = some ([], some cb) :=
  c9_unterminated_fence "```\nfoo".toList [] "```".toList ["foo".toList] [] []
    (by decide) (by decide)
    (by
      intro l hl
      rw [List.mem_singleton] at hl
      subst hl
      decide)
    (by decide)

/-- C10: a span whose offset is at or past the sum of all fragment lengths
locates no fragment, and `style`, `replace` and `remove` all complete
without a fault leaving the text unchanged. -/
theorem c10_out_of_bounds_noop (t : Text) (sp : Span) (p : Nat) (st : Style)
    (fr : TextFragment) (h : totalLen t.content ≤ sp.offset) :
    t.find_modified_fragment sp.offset = none ∧
      t.style p sp st = some t ∧ t.replace sp fr = some t ∧ t.remove sp = some t := by
  have hf : t.find_modified_fragment sp.offset = none :=
    findAux_none t.content sp.offset 0 0 (by omega)
  refine ⟨hf, ?_, ?_, ?_⟩ <;> simp [Text.style, Text.replace, Text.remove, hf]

/-- C10 (witness): an out-of-range span on a concrete two-character text. -/
theorem c10_out_of_bounds_noop_witness :
    (⟨[TextFragment.Stylised Style.Normal "ab".toList]⟩ : Text).find_modified_fragment 2 =
        none ∧
      (⟨[TextFragment.Stylised Style.Normal "ab".toList]⟩ : Text).style 1 ⟨2, 5⟩
          Style.Emphasis =
        some ⟨[TextFragment.Stylised Style.Normal "ab".toList]⟩ ∧
      (⟨[TextFragment.Stylised Style.Normal "ab".toList]⟩ : Text).replace ⟨2, 5⟩
          (TextFragment.Link [] []) =
        some ⟨[TextFragment.Stylised Style.Normal "ab".toList]⟩ ∧
      (⟨[TextFragment.Stylised Style.Normal "ab".toList]⟩ : Text).remove ⟨2, 5⟩ =
        some ⟨[TextFragment.Stylised Style.Normal "ab".toList]⟩ :=
  c10_out_of_bounds_noop ⟨[.Stylised Style.Normal "ab".toList]⟩ ⟨2, 5⟩ 1 Style.Emphasis
    (.Link [] []) (by decide)
